import Mathlib

/-!
Verification development for the syntheval metric excerpt: the
epsilon-identifiability privacy metric and the mixed-correlation utility
metric.  Python floating point is modelled by exact arithmetic (`ℚ` for
quantities that are rational by construction, `ℝ` where square roots,
logarithms or `tanh` appear); NumPy/pandas arrays are modelled as
functions out of `Fin n`; the Python `dict` used as a results bag is
modelled as a function `String → Option V`.
-/

namespace Syntheval

/-! ### Epsilon identifiability (metric_epsilon_identifiability.py) -/

/-- Embedding of the core computation of `EpsilonIdentifiability.evaluate`:
`R_Diff = ext_distances - in_dists; np.sum(R_Diff < 0) / float(no)`.
The two nearest-neighbour distance vectors come from the external utility
`_knn_distance` and are therefore parameters. -/
def epsRisk (no : ℕ) (in_dists ext_distances : Fin no → ℚ) : ℚ :=
  ((Finset.univ.filter fun i => ext_distances i - in_dists i < 0).card : ℚ) / (no : ℚ)

/-- Embedding of the effect of `EpsilonIdentifiability.evaluate` on the
results mapping: `self.results['eps_risk'] = identifiability_value` is a
single-key in-place dict update, all other keys keep their prior value. -/
def epsEvaluateResults (no : ℕ) (in_dists ext_distances : Fin no → ℚ)
    (oldResults : String → Option ℚ) : String → Option ℚ :=
  fun k => if k = "eps_risk" then some (epsRisk no in_dists ext_distances) else oldResults k

/-- Model of a tabular dataset for the column-restriction effect: a map from
column name to the column of values, `none` for absent columns. -/
def Dataset : Type := String → Option (List ℚ)

/-- Embedding of `df[cols]`: restriction of a dataset to a list of columns. -/
def restrictCols (d : Dataset) (cols : List String) : Dataset :=
  fun c => if c ∈ cols then d c else none

/-- Instance attributes of `EpsilonIdentifiability` that
`evaluate` reads or reassigns. -/
structure EpsState where
  real_data : Dataset
  synt_data : Dataset
  nn_dist : String
  num_cols : List String
  cat_cols : List String

/-- Embedding of the attribute-mutation prologue of
`EpsilonIdentifiability.evaluate`:
`if self.nn_dist == 'euclid': self.real_data = self.real_data[self.num_cols];
self.synt_data = self.synt_data[self.num_cols]`.  No other statement of
`evaluate` assigns to these attributes. -/
def epsEvaluateState (s : EpsState) : EpsState :=
  if s.nn_dist = "euclid" then
    { s with real_data := restrictCols s.real_data s.num_cols,
             synt_data := restrictCols s.synt_data s.num_cols }
  else s

/-! ### Column entropy (`_column_entropy`) -/

/-- Embedding of `np.round` on one value: round half to even
(banker's rounding), NumPy's rounding rule. -/
def roundHalfEven (q : ℚ) : ℤ :=
  if q - ⌊q⌋ < 1/2 then ⌊q⌋
  else if 1/2 < q - ⌊q⌋ then ⌊q⌋ + 1
  else if Even ⌊q⌋ then ⌊q⌋ else ⌊q⌋ + 1

/-- Embedding of `np.round(labels)` applied to a whole column. -/
def roundedCol (l : List ℚ) : List ℤ := l.map roundHalfEven

/-- Relative frequency of a rounded value `v` in the column: what
`scipy.stats.entropy` computes from `counts` by normalising with
`sum(counts)`, which equals the column length. -/
noncomputable def relFreq (l : List ℚ) (v : ℤ) : ℝ :=
  ((roundedCol l).count v : ℝ) / (l.length : ℝ)

/-- Embedding of `_column_entropy`: `value, counts = np.unique(np.round(labels),
return_counts=True); return entropy(counts)` — natural-log Shannon entropy of
the frequency distribution of the rounded values. -/
noncomputable def columnEntropy (l : List ℚ) : ℝ :=
  -∑ v ∈ (roundedCol l).toFinset, relFreq l v * Real.log (relFreq l v)

/-! ### Cramér's V (`_cramers_V`) -/

section CramersV

variable {α β : Type} [DecidableEq α] [DecidableEq β]

/-- Cell of `pd.crosstab(var1, var2)`: the number of rows where the first
column equals `u` and the second equals `v`. -/
def ctCount (n : ℕ) (a : Fin n → α) (b : Fin n → β) (u : α) (v : β) : ℕ :=
  (Finset.univ.filter fun i => a i = u ∧ b i = v).card

/-- Distinct values of a column: the row (resp. column) index set of the
crosstab. -/
def colVals (n : ℕ) (a : Fin n → α) : Finset α := Finset.image a Finset.univ

/-- Row margin of the crosstab: sum of the row `u` over all table columns. -/
def rowTot (n : ℕ) (a : Fin n → α) (b : Fin n → β) (u : α) : ℕ :=
  ∑ v ∈ colVals n b, ctCount n a b u v

/-- Column margin of the crosstab: sum of the column `v` over all table
rows. -/
def colTot (n : ℕ) (a : Fin n → α) (b : Fin n → β) (v : β) : ℕ :=
  ∑ u ∈ colVals n a, ctCount n a b u v

/-- Embedding of `obs = np.sum(crosstab)`: the grand total of the table. -/
def obsTot (n : ℕ) (a : Fin n → α) (b : Fin n → β) : ℕ :=
  ∑ u ∈ colVals n a, ∑ v ∈ colVals n b, ctCount n a b u v

/-- Expected frequency of a cell under independence, as computed by
`scipy.stats.chi2_contingency`: row margin times column margin over the
grand total. -/
def expFreq (n : ℕ) (a : Fin n → α) (b : Fin n → β) (u : α) (v : β) : ℚ :=
  ((rowTot n a b u : ℚ) * (colTot n a b v : ℚ)) / (obsTot n a b : ℚ)

/-- Degrees of freedom of the contingency table, `(rows - 1) * (cols - 1)`,
as computed by `chi2_contingency`. -/
def dofCT (n : ℕ) (a : Fin n → α) (b : Fin n → β) : ℕ :=
  ((colVals n a).card - 1) * ((colVals n b).card - 1)

/-- One cell's contribution to the chi-squared statistic.  When the degrees
of freedom are 1 (a 2×2 table), `chi2_contingency` applies Yates' continuity
correction by default, moving each observed count toward its expected value
by `min(0.5, |O - E|)`. -/
def chi2Cell (n : ℕ) (a : Fin n → α) (b : Fin n → β) (u : α) (v : β) : ℚ :=
  if dofCT n a b = 1 then
    (|(ctCount n a b u v : ℚ) - expFreq n a b u v| -
      min (1/2) |(ctCount n a b u v : ℚ) - expFreq n a b u v|) ^ 2 / expFreq n a b u v
  else
    ((ctCount n a b u v : ℚ) - expFreq n a b u v) ^ 2 / expFreq n a b u v

/-- Embedding of `chi2_contingency(crosstab)[0]`: the test statistic; `0` in
the degenerate zero-degrees-of-freedom case (`scipy` special-cases it, and
there the observed counts equal the expected ones anyway). -/
def chi2Stat (n : ℕ) (a : Fin n → α) (b : Fin n → β) : ℚ :=
  if dofCT n a b = 0 then 0
  else ∑ u ∈ colVals n a, ∑ v ∈ colVals n b, chi2Cell n a b u v

/-- Embedding of `_cramers_V`: `stat / (obs * mini + 1e-16)` with
`mini = min(crosstab.shape) - 1`. -/
def cramersV (n : ℕ) (a : Fin n → α) (b : Fin n → β) : ℚ :=
  chi2Stat n a b /
    ((obsTot n a b : ℚ) * ((min (colVals n a).card (colVals n b).card - 1 : ℕ) : ℚ)
      + 1 / 10 ^ 16)

end CramersV

/-! ### Correlation ratio (`_correlation_ratio`) -/

section CorrelationRatio

variable {α : Type} [DecidableEq α]

/-- Embedding of `np.argwhere(fcat == i).flatten()`: the row indices of
category `c`.  `pd.factorize` assigns one integer code per distinct
category, so the groups are indexed here directly by category value. -/
def catIdx (n : ℕ) (cats : Fin n → α) (c : α) : Finset (Fin n) :=
  Finset.univ.filter fun i => cats i = c

/-- Embedding of `n_array[i] = len(cat_measures)`. -/
def nCat (n : ℕ) (cats : Fin n → α) (c : α) : ℚ := ((catIdx n cats c).card : ℚ)

/-- Embedding of `y_avg_array[i] = np.average(cat_measures)`. -/
def avgCat (n : ℕ) (cats : Fin n → α) (ys : Fin n → ℚ) (c : α) : ℚ :=
  (∑ i ∈ catIdx n cats c, ys i) / ((catIdx n cats c).card : ℚ)

/-- Embedding of
`y_total_avg = np.sum(np.multiply(y_avg_array, n_array)) / np.sum(n_array)`. -/
def grandAvg (n : ℕ) (cats : Fin n → α) (ys : Fin n → ℚ) : ℚ :=
  (∑ c ∈ colVals n cats, avgCat n cats ys c * nCat n cats c) /
    (∑ c ∈ colVals n cats, nCat n cats c)

/-- Embedding of the numerator
`np.sum(np.multiply(n_array, np.power(np.subtract(y_avg_array, y_total_avg), 2)))`. -/
def crNumer (n : ℕ) (cats : Fin n → α) (ys : Fin n → ℚ) : ℚ :=
  ∑ c ∈ colVals n cats, nCat n cats c * (avgCat n cats ys c - grandAvg n cats ys) ^ 2

/-- Embedding of the denominator
`np.sum(np.power(np.subtract(measurements, y_total_avg), 2))`. -/
def crDenom (n : ℕ) (cats : Fin n → α) (ys : Fin n → ℚ) : ℚ :=
  ∑ i, (ys i - grandAvg n cats ys) ^ 2

/-- Embedding of `_correlation_ratio`: `eta = 0.0` when the numerator is `0`,
otherwise `numerator / denominator`. -/
def correlationRatio (n : ℕ) (cats : Fin n → α) (ys : Fin n → ℚ) : ℚ :=
  if crNumer n cats ys = 0 then 0 else crNumer n cats ys / crDenom n cats ys

end CorrelationRatio

/-! ### Pearson and Spearman correlation (pandas `.corr()`) -/

/-- Sample mean of a numeric column. -/
def qmean (n : ℕ) (x : Fin n → ℚ) : ℚ := (∑ i, x i) / (n : ℚ)

/-- Centred cross-product sum, the common numerator/denominator core of the
Pearson correlation. -/
def ccov (n : ℕ) (x y : Fin n → ℚ) : ℚ :=
  ∑ i, (x i - qmean n x) * (y i - qmean n y)

/-- Embedding of one off-diagonal entry of `data[num_cols].corr()`: pandas'
default correlation method is Pearson,
`r = Σ(x-x̄)(y-ȳ) / sqrt(Σ(x-x̄)² · Σ(y-ȳ)²)`. -/
noncomputable def pearsonCorr (n : ℕ) (x y : Fin n → ℚ) : ℝ :=
  ((ccov n x y : ℚ) : ℝ) / Real.sqrt (((ccov n x x : ℚ) : ℝ) * ((ccov n y y : ℚ) : ℝ))

/-- Average rank of entry `i` in column `x` (ranking with average
tie-handling, as pandas uses for Spearman). -/
def rankOf (n : ℕ) (x : Fin n → ℚ) (i : Fin n) : ℚ :=
  ((Finset.univ.filter fun j => x j < x i).card : ℚ) +
    (((Finset.univ.filter fun j => x j = x i).card : ℚ) + 1) / 2

/-- Spearman's rho: the Pearson correlation of the rank-transformed columns.
This is the measure the docstrings of `mixed_correlation` and
`MixedCorrelation.evaluate` announce for the numeric-numeric block. -/
noncomputable def spearmanCorr (n : ℕ) (x y : Fin n → ℚ) : ℝ :=
  pearsonCorr n (rankOf n x) (rankOf n y)

/-! ### Mixed correlation (metric_mixed_correlation.py) -/

/-- A dataset with `nr` rows, `c` categorical columns (values encoded as
integers) and `m` numeric columns; the two column lists are disjoint by
construction. -/
structure MixedData (nr c m : ℕ) where
  catCol : Fin c → Fin nr → ℤ
  numCol : Fin m → Fin nr → ℚ

/-- The block matrix assembled by `mixed_correlation` before the diagonal
correction: Cramér's V on the categorical-categorical block, correlation
ratio on the categorical-numeric block and its transpose, and pandas
`.corr()` (Pearson) on the numeric-numeric block.  The sum-type index puts
the categorical block first, matching the `[cat..., num...]` concatenation
order of the code. -/
noncomputable def mixedCorrBlocks {nr c m : ℕ} (d : MixedData nr c m) :
    Fin c ⊕ Fin m → Fin c ⊕ Fin m → ℝ
  | Sum.inl i, Sum.inl j => ((cramersV nr (d.catCol i) (d.catCol j) : ℚ) : ℝ)
  | Sum.inl i, Sum.inr j => ((correlationRatio nr (d.catCol i) (d.numCol j) : ℚ) : ℝ)
  | Sum.inr i, Sum.inl j => ((correlationRatio nr (d.catCol j) (d.numCol i) : ℚ) : ℝ)
  | Sum.inr i, Sum.inr j => pearsonCorr nr (d.numCol i) (d.numCol j)

/-- Embedding of `mixed_correlation`: the assembled matrix after the final
`corr + np.diag(1 - np.diag(corr))` diagonal correction. -/
noncomputable def mixedCorrelation {nr c m : ℕ} (d : MixedData nr c m) :
    Fin c ⊕ Fin m → Fin c ⊕ Fin m → ℝ :=
  fun i j => mixedCorrBlocks d i j + (if i = j then 1 - mixedCorrBlocks d i i else 0)

/-- Embedding of `corr_mat = r_corr - f_corr` in `MixedCorrelation.evaluate`
(mixed mode): element-wise difference of the two mixed matrices. -/
noncomputable def corrMatDiff {nr c m : ℕ} (real synt : MixedData nr c m) :
    Fin c ⊕ Fin m → Fin c ⊕ Fin m → ℝ :=
  fun i j => mixedCorrelation real i j - mixedCorrelation synt i j

/-- Embedding of `np.linalg.norm(corr_mat, ord='fro')`: the Frobenius norm,
the square root of the sum of squared entries. -/
noncomputable def frobNorm {c m : ℕ} (M : Fin c ⊕ Fin m → Fin c ⊕ Fin m → ℝ) : ℝ :=
  Real.sqrt (∑ i, ∑ j, M i j ^ 2)

/-- The scalar stored by `MixedCorrelation.evaluate` (mixed mode) under
`'corr_mat_diff'`. -/
noncomputable def mixedCorrEvaluate {nr c m : ℕ} (real synt : MixedData nr c m) : ℝ :=
  frobNorm (corrMatDiff real synt)

/-- Embedding of `MixedCorrelation.normalize_output`:
`{'val': [1 - np.tanh(corr_mat_diff)], 'err': [0]}`, as the pair of the
`val` list and the `err` list. -/
noncomputable def mixedCorrNormalize (corr_mat_diff : ℝ) : List ℝ × List ℝ :=
  ([1 - Real.tanh corr_mat_diff], [0])

/-- Embedding of the effect of `MixedCorrelation.evaluate` (default
`return_mats=False`) on the results mapping:
`self.results = {'corr_mat_diff': ...}` rebinds the attribute to a fresh
single-entry dict, so no entry of the prior mapping survives. -/
noncomputable def mixedCorrEvaluateResults {nr c m : ℕ} (real synt : MixedData nr c m)
    (oldResults : String → Option ℝ) : String → Option ℝ :=
  fun k => if k = "corr_mat_diff" then some (mixedCorrEvaluate real synt) else none

/-- First numeric column of the dataset refuting the Spearman claim. -/
def xMono : Fin 3 → ℚ := ![1, 2, 3]

/-- Second numeric column of the dataset refuting the Spearman claim: it
increases monotonically with `xMono` (so Spearman's rho is 1) but not
linearly (so Pearson's r is not). -/
def yMono : Fin 3 → ℚ := ![1, 2, 8]

/-- The dataset refuting the Spearman claim: three rows, no categorical
columns, numeric columns `xMono` and `yMono`. -/
def dMono : MixedData 3 0 2 := ⟨fun i => i.elim0, ![xMono, yMono]⟩

/-- C2: with a non-empty real dataset, `evaluate` stores under `'eps_risk'`
exactly the number of indices with `ext_distances[i] < in_dists[i]` divided
by the number of real rows, and an index with `ext_distances[i] = in_dists[i]`
is never among the counted ones (the comparison is strict). -/
theorem eps_risk_strict_fraction (no : ℕ) (hno : 0 < no)
    (in_dists ext_distances : Fin no → ℚ) (oldResults : String → Option ℚ) :
    epsEvaluateResults no in_dists ext_distances oldResults "eps_risk" =
      some (((Finset.univ.filter fun i => ext_distances i < in_dists i).card : ℚ) / (no : ℚ)) ∧
    ∀ i : Fin no, ext_distances i = in_dists i →
      i ∉ Finset.univ.filter fun i => ext_distances i - in_dists i < 0 := by
  have hset : (Finset.univ.filter fun i => ext_distances i - in_dists i < 0) =
      (Finset.univ.filter fun i => ext_distances i < in_dists i) := by
    apply Finset.filter_congr
    intro i _
    simp [sub_neg]
  constructor
  · simp [epsEvaluateResults, epsRisk, hset]
  · intro i h
    simp [h]

/-- Witness for `eps_risk_strict_fraction` at `no = 2`,
`in_dists = ![1, 2]`, `ext_distances = ![0, 2]`. -/
theorem eps_risk_strict_fraction_witness :
    0 < 2 ∧
    (epsEvaluateResults 2 ![1, 2] ![0, 2] (fun _ => none) "eps_risk" =
      some (((Finset.univ.filter fun i => (![0, 2] : Fin 2 → ℚ) i < ![1, 2] i).card : ℚ) / (2 : ℚ)) ∧
    ∀ i : Fin 2, (![0, 2] : Fin 2 → ℚ) i = ![1, 2] i →
      i ∉ Finset.univ.filter fun i => (![0, 2] : Fin 2 → ℚ) i - ![1, 2] i < 0) :=
  ⟨by decide, eps_risk_strict_fraction 2 (by decide) ![1, 2] ![0, 2] (fun _ => none)⟩

/-- C4: for a non-empty real dataset and any distance vectors, the stored
identifiability score lies in the closed interval `[0, 1]`. -/
theorem eps_risk_mem_unit_interval (no : ℕ) (hno : 0 < no)
    (in_dists ext_distances : Fin no → ℚ) :
    0 ≤ epsRisk no in_dists ext_distances ∧ epsRisk no in_dists ext_distances ≤ 1 := by
  have hnoQ : (0 : ℚ) < (no : ℚ) := by exact_mod_cast hno
  constructor
  · exact div_nonneg (by positivity) hnoQ.le
  · rw [epsRisk, div_le_one hnoQ]
    have hcard : (Finset.univ.filter fun i => ext_distances i - in_dists i < 0).card ≤ no := by
      simpa using Finset.card_filter_le Finset.univ fun i => ext_distances i - in_dists i < 0
    exact_mod_cast hcard

/-- Witness for `eps_risk_mem_unit_interval` at `no = 2`,
`in_dists = ![1, 2]`, `ext_distances = ![0, 2]`. -/
theorem eps_risk_mem_unit_interval_witness :
    0 < 2 ∧ (0 ≤ epsRisk 2 ![1, 2] ![0, 2] ∧ epsRisk 2 ![1, 2] ![0, 2] ≤ 1) :=
  ⟨by decide, eps_risk_mem_unit_interval 2 (by decide) ![1, 2] ![0, 2]⟩

/-- C10: when `nn_dist = 'euclid'`, `evaluate` reassigns `self.real_data`
and `self.synt_data` to their restrictions to the numeric columns, so the
dataset attributes afterwards hold no categorical column (the column lists
being disjoint); for any other keyword the state is unchanged. -/
theorem eps_evaluate_state_effect (s : EpsState) :
    (s.nn_dist = "euclid" →
      (epsEvaluateState s).real_data = restrictCols s.real_data s.num_cols ∧
      (epsEvaluateState s).synt_data = restrictCols s.synt_data s.num_cols ∧
      ∀ c ∈ s.cat_cols, c ∉ s.num_cols →
        (epsEvaluateState s).real_data c = none ∧ (epsEvaluateState s).synt_data c = none) ∧
    (s.nn_dist ≠ "euclid" → epsEvaluateState s = s) := by
  constructor
  · intro h
    refine ⟨?_, ?_, ?_⟩
    · simp [epsEvaluateState, h]
    · simp [epsEvaluateState, h]
    · intro c _ hc
      constructor <;> simp [epsEvaluateState, h, restrictCols, hc]
  · intro h
    simp [epsEvaluateState, h]

/-- Witness for `eps_evaluate_state_effect`: a state in euclid mode with one
numeric column `"x"` and one categorical column `"c"`; the restriction drops
`"c"`. -/
theorem eps_evaluate_state_effect_witness :
    ({ real_data := fun _ => some [1], synt_data := fun _ => some [2],
       nn_dist := "euclid", num_cols := ["x"], cat_cols := ["c"] } : EpsState).nn_dist
        = "euclid" ∧
    (epsEvaluateState
      { real_data := fun _ => some [1], synt_data := fun _ => some [2],
        nn_dist := "euclid", num_cols := ["x"], cat_cols := ["c"] }).real_data "c" = none :=
  ⟨rfl, (((eps_evaluate_state_effect _).1 rfl).2.2 "c" (by decide) (by decide)).1⟩

/-! ### Column entropy lemmas -/

theorem roundedCol_length (l : List ℚ) : (roundedCol l).length = l.length :=
  List.length_map l roundHalfEven

theorem count_pos_of_mem_rounded {l : List ℚ} {v : ℤ}
    (hv : v ∈ (roundedCol l).toFinset) : 0 < (roundedCol l).count v :=
  List.count_pos_iff.mpr (List.mem_toFinset.mp hv)

theorem relFreq_pos {l : List ℚ} (hl : l ≠ []) {v : ℤ}
    (hv : v ∈ (roundedCol l).toFinset) : 0 < relFreq l v := by
  have h1 : (0 : ℝ) < ((roundedCol l).count v : ℝ) := by
    exact_mod_cast count_pos_of_mem_rounded hv
  have h2 : (0 : ℝ) < (l.length : ℝ) := by
    exact_mod_cast List.length_pos.mpr hl
  exact div_pos h1 h2

theorem relFreq_le_one {l : List ℚ} (hl : l ≠ []) (v : ℤ) : relFreq l v ≤ 1 := by
  have h2 : (0 : ℝ) < (l.length : ℝ) := by
    exact_mod_cast List.length_pos.mpr hl
  rw [relFreq, div_le_one h2]
  have := List.count_le_length (l := roundedCol l) (a := v)
  rw [roundedCol_length] at this
  exact_mod_cast this

theorem entropy_term_nonpos {l : List ℚ} (hl : l ≠ []) (v : ℤ)
    (hv : v ∈ (roundedCol l).toFinset) :
    relFreq l v * Real.log (relFreq l v) ≤ 0 :=
  mul_nonpos_of_nonneg_of_nonpos (relFreq_pos hl hv).le
    (Real.log_nonpos (relFreq_pos hl hv).le (relFreq_le_one hl v))

theorem sum_count_rounded (l : List ℚ) :
    ∑ v ∈ (roundedCol l).toFinset, (roundedCol l).count v = l.length := by
  rw [List.sum_toFinset_count_eq_length, roundedCol_length]

/-- C8: for every non-empty column, `_column_entropy` is non-negative, is `0`
exactly when all values round to the same integer, is invariant under
permutation of the column, and equals `ln k` when the `k` distinct rounded
values all have the same frequency. -/
theorem column_entropy_spec (l : List ℚ) (hl : l ≠ []) :
    0 ≤ columnEntropy l ∧
    (columnEntropy l = 0 ↔ ∀ x ∈ l, ∀ y ∈ l, roundHalfEven x = roundHalfEven y) ∧
    (∀ l' : List ℚ, l.Perm l' → columnEntropy l = columnEntropy l') ∧
    (∀ k m : ℕ, (roundedCol l).toFinset.card = k →
      (∀ v ∈ (roundedCol l).toFinset, (roundedCol l).count v = m) →
      columnEntropy l = Real.log k) := by
  have hn : 0 < l.length := List.length_pos.mpr hl
  have hnR : (0 : ℝ) < (l.length : ℝ) := by exact_mod_cast hn
  refine ⟨?_, ?_, ?_, ?_⟩
  · rw [columnEntropy, neg_nonneg]
    exact Finset.sum_nonpos fun v hv => entropy_term_nonpos hl v hv
  · rw [columnEntropy, neg_eq_zero,
      Finset.sum_eq_zero_iff_of_nonpos fun v hv => entropy_term_nonpos hl v hv]
    constructor
    · intro hz x hx y hy
      have hcount : ∀ v ∈ (roundedCol l).toFinset, (roundedCol l).count v = l.length := by
        intro v hv
        have hterm := hz v hv
        rcases mul_eq_zero.mp hterm with h | h
        · exact absurd h (ne_of_gt (relFreq_pos hl hv))
        · rcases Real.log_eq_zero.mp h with h1 | h1 | h1
          · exact absurd h1 (ne_of_gt (relFreq_pos hl hv))
          · have := (div_eq_one_iff_eq (ne_of_gt hnR)).mp h1
            exact_mod_cast this
          · exact absurd h1 (by nlinarith [relFreq_pos hl hv])
      by_contra hne
      have hx' : roundHalfEven x ∈ (roundedCol l).toFinset :=
        List.mem_toFinset.mpr (List.mem_map_of_mem roundHalfEven hx)
      have hy' : roundHalfEven y ∈ (roundedCol l).toFinset :=
        List.mem_toFinset.mpr (List.mem_map_of_mem roundHalfEven hy)
      have hpair : ({roundHalfEven x, roundHalfEven y} : Finset ℤ) ⊆ (roundedCol l).toFinset := by
        intro v hv
        rcases Finset.mem_insert.mp hv with h | h
        · exact h ▸ hx'
        · exact (Finset.mem_singleton.mp h) ▸ hy'
      have hsum := sum_count_rounded l
      have hle : ∑ v ∈ ({roundHalfEven x, roundHalfEven y} : Finset ℤ), (roundedCol l).count v ≤
          ∑ v ∈ (roundedCol l).toFinset, (roundedCol l).count v :=
        Finset.sum_le_sum_of_subset hpair
      rw [Finset.sum_pair hne] at hle
      rw [hsum, hcount _ hx', hcount _ hy'] at hle
      omega
    · intro hall v hv
      have hvl : v ∈ roundedCol l := List.mem_toFinset.mp hv
      obtain ⟨x, hx, hxv⟩ := List.mem_map.mp hvl
      have hcount : (roundedCol l).count v = (roundedCol l).length := by
        apply List.count_eq_length.mpr
        intro b hb
        obtain ⟨y, hy, hyv⟩ := List.mem_map.mp hb
        rw [← hxv, ← hyv]
        exact hall x hx y hy
      have : relFreq l v = 1 := by
        rw [relFreq, hcount, roundedCol_length, div_self (ne_of_gt hnR)]
      rw [this, Real.log_one, mul_zero]
  · intro l' hp
    have hperm : (roundedCol l).Perm (roundedCol l') := hp.map roundHalfEven
    have ht : (roundedCol l).toFinset = (roundedCol l').toFinset :=
      List.toFinset_eq_of_perm _ _ hperm
    have hlen : l.length = l'.length := hp.length_eq
    rw [columnEntropy, columnEntropy]
    refine congrArg Neg.neg ?_
    rw [ht]
    refine Finset.sum_congr rfl fun v hv => ?_
    rw [relFreq, relFreq, hperm.count_eq, hlen]
  · intro k m hk hm
    have hne : (roundedCol l).toFinset.Nonempty := by
      obtain ⟨x, hx⟩ := List.exists_mem_of_ne_nil l hl
      exact ⟨roundHalfEven x, List.mem_toFinset.mpr (List.mem_map_of_mem roundHalfEven hx)⟩
    have hkpos : 0 < k := hk ▸ Finset.card_pos.mpr hne
    have hmpos : 0 < m := by
      obtain ⟨v, hv⟩ := hne
      exact hm v hv ▸ count_pos_of_mem_rounded hv
    have hlen : l.length = k * m := by
      have := sum_count_rounded l
      rw [Finset.sum_congr rfl hm, Finset.sum_const, hk, smul_eq_mul] at this
      omega
    have hk0 : (k : ℝ) ≠ 0 := by exact_mod_cast hkpos.ne'
    have hm0 : (m : ℝ) ≠ 0 := by exact_mod_cast hmpos.ne'
    have hterm : ∀ v ∈ (roundedCol l).toFinset,
        relFreq l v * Real.log (relFreq l v) =
          (1 / (k : ℝ)) * Real.log (1 / (k : ℝ)) := by
      intro v hv
      have : relFreq l v = 1 / (k : ℝ) := by
        rw [relFreq, hm v hv, hlen]
        push_cast
        field_simp
        ring
      rw [this]
    rw [columnEntropy, Finset.sum_congr rfl hterm, Finset.sum_const, hk, nsmul_eq_mul,
      one_div, Real.log_inv]
    field_simp

/-- Witness for `column_entropy_spec` at the column `[0, 1]`. -/
theorem column_entropy_spec_witness :
    ([(0 : ℚ), 1] ≠ []) ∧
    (0 ≤ columnEntropy [0, 1] ∧
    (columnEntropy [0, 1] = 0 ↔
      ∀ x ∈ [(0 : ℚ), 1], ∀ y ∈ [(0 : ℚ), 1], roundHalfEven x = roundHalfEven y) ∧
    (∀ l' : List ℚ, List.Perm [0, 1] l' → columnEntropy [0, 1] = columnEntropy l') ∧
    (∀ k m : ℕ, (roundedCol [0, 1]).toFinset.card = k →
      (∀ v ∈ (roundedCol [0, 1]).toFinset, (roundedCol [0, 1]).count v = m) →
      columnEntropy [0, 1] = Real.log k)) :=
  ⟨by decide, column_entropy_spec [0, 1] (by decide)⟩

/-! ### Cramér's V symmetry lemmas -/

section CramersVLemmas

variable {α β : Type} [DecidableEq α] [DecidableEq β]

theorem ctCount_symm (n : ℕ) (a : Fin n → α) (b : Fin n → β) (u : α) (v : β) :
    ctCount n b a v u = ctCount n a b u v := by
  unfold ctCount
  congr 1
  apply Finset.filter_congr
  intro i _
  exact and_comm

theorem rowTot_symm (n : ℕ) (a : Fin n → α) (b : Fin n → β) (v : β) :
    rowTot n b a v = colTot n a b v := by
  unfold rowTot colTot
  exact Finset.sum_congr rfl fun u _ => ctCount_symm n a b u v

theorem colTot_symm (n : ℕ) (a : Fin n → α) (b : Fin n → β) (u : α) :
    colTot n b a u = rowTot n a b u := by
  unfold rowTot colTot
  exact Finset.sum_congr rfl fun v _ => ctCount_symm n a b u v

theorem obsTot_symm (n : ℕ) (a : Fin n → α) (b : Fin n → β) :
    obsTot n b a = obsTot n a b := by
  unfold obsTot
  rw [Finset.sum_comm]
  exact Finset.sum_congr rfl fun u _ => Finset.sum_congr rfl fun v _ => ctCount_symm n a b u v

theorem expFreq_symm (n : ℕ) (a : Fin n → α) (b : Fin n → β) (u : α) (v : β) :
    expFreq n b a v u = expFreq n a b u v := by
  unfold expFreq
  rw [rowTot_symm n a b v, colTot_symm n a b u, obsTot_symm n a b, mul_comm]

theorem dofCT_symm (n : ℕ) (a : Fin n → α) (b : Fin n → β) :
    dofCT n b a = dofCT n a b := by
  unfold dofCT
  exact Nat.mul_comm _ _

theorem chi2Cell_symm (n : ℕ) (a : Fin n → α) (b : Fin n → β) (u : α) (v : β) :
    chi2Cell n b a v u = chi2Cell n a b u v := by
  unfold chi2Cell
  rw [dofCT_symm, ctCount_symm, expFreq_symm]

theorem chi2Stat_symm (n : ℕ) (a : Fin n → α) (b : Fin n → β) :
    chi2Stat n b a = chi2Stat n a b := by
  unfold chi2Stat
  rw [dofCT_symm]
  rcases eq_or_ne (dofCT n a b) 0 with h | h
  · simp [h]
  · rw [if_neg h, if_neg h, Finset.sum_comm]
    exact Finset.sum_congr rfl fun u _ => Finset.sum_congr rfl fun v _ => chi2Cell_symm n a b u v

end CramersVLemmas

/-- C7: `_cramers_V` is symmetric in its two arguments: swapping them
transposes the contingency table, leaving the chi-squared statistic, the
total observation count and `min(rows, cols) - 1` unchanged, hence the
returned value unchanged. -/
theorem cramers_V_symm {α β : Type} [DecidableEq α] [DecidableEq β]
    (n : ℕ) (a : Fin n → α) (b : Fin n → β) :
    chi2Stat n b a = chi2Stat n a b ∧
    obsTot n b a = obsTot n a b ∧
    min (colVals n b).card (colVals n a).card - 1 =
      min (colVals n a).card (colVals n b).card - 1 ∧
    cramersV n b a = cramersV n a b := by
  refine ⟨chi2Stat_symm n a b, obsTot_symm n a b, by rw [Nat.min_comm], ?_⟩
  unfold cramersV
  rw [chi2Stat_symm, obsTot_symm, Nat.min_comm]

/-! ### Correlation ratio lemmas -/

section CorrelationRatioLemmas

variable {α : Type} [DecidableEq α]

theorem catIdx_card_pos {n : ℕ} {cats : Fin n → α} {c : α} (hc : c ∈ colVals n cats) :
    0 < (catIdx n cats c).card := by
  obtain ⟨i, _, rfl⟩ := Finset.mem_image.mp hc
  exact Finset.card_pos.mpr ⟨i, by simp [catIdx]⟩

theorem sum_fiber_cats (n : ℕ) (cats : Fin n → α) (f : Fin n → ℚ) :
    ∑ c ∈ colVals n cats, ∑ i ∈ catIdx n cats c, f i = ∑ i, f i :=
  Finset.sum_fiberwise_of_maps_to (fun i _ => Finset.mem_image_of_mem cats (Finset.mem_univ i)) f

theorem sum_nCat (n : ℕ) (cats : Fin n → α) :
    ∑ c ∈ colVals n cats, nCat n cats c = (n : ℚ) := by
  have h := sum_fiber_cats n cats fun _ => (1 : ℚ)
  simp only [Finset.sum_const, nsmul_eq_mul, mul_one, Finset.card_univ, Fintype.card_fin] at h
  simpa [nCat] using h

theorem sum_avgCat_mul_nCat (n : ℕ) (cats : Fin n → α) (ys : Fin n → ℚ) :
    ∑ c ∈ colVals n cats, avgCat n cats ys c * nCat n cats c = ∑ i, ys i := by
  rw [← sum_fiber_cats n cats ys]
  refine Finset.sum_congr rfl fun c hc => ?_
  have hpos : (0 : ℚ) < ((catIdx n cats c).card : ℚ) := by
    exact_mod_cast catIdx_card_pos hc
  rw [avgCat, nCat, div_mul_cancel₀ _ (ne_of_gt hpos)]

theorem group_between_le_within {n : ℕ} (cats : Fin n → α) (ys : Fin n → ℚ) (t : ℚ)
    {c : α} (hc : c ∈ colVals n cats) :
    nCat n cats c * (avgCat n cats ys c - t) ^ 2 ≤ ∑ i ∈ catIdx n cats c, (ys i - t) ^ 2 := by
  have hpos : (0 : ℚ) < ((catIdx n cats c).card : ℚ) := by
    exact_mod_cast catIdx_card_pos hc
  have hne : ((catIdx n cats c).card : ℚ) ≠ 0 := ne_of_gt hpos
  have havg : avgCat n cats ys c - t =
      (∑ i ∈ catIdx n cats c, (ys i - t)) / ((catIdx n cats c).card : ℚ) := by
    rw [avgCat, Finset.sum_sub_distrib, Finset.sum_const, nsmul_eq_mul]
    field_simp
  have key : (∑ i ∈ catIdx n cats c, (ys i - t)) ^ 2 ≤
      ((catIdx n cats c).card : ℚ) * ∑ i ∈ catIdx n cats c, (ys i - t) ^ 2 := by
    simpa using sq_sum_le_card_mul_sum_sq (s := catIdx n cats c) (f := fun i => ys i - t)
  have h1 : nCat n cats c * (avgCat n cats ys c - t) ^ 2 =
      (∑ i ∈ catIdx n cats c, (ys i - t)) ^ 2 / ((catIdx n cats c).card : ℚ) := by
    rw [nCat, havg, div_pow, sq ((catIdx n cats c).card : ℚ)]
    field_simp
    ring
  rw [h1, div_le_iff₀ hpos, mul_comm (∑ i ∈ catIdx n cats c, (ys i - t) ^ 2)]
  exact key

theorem crNumer_nonneg (n : ℕ) (cats : Fin n → α) (ys : Fin n → ℚ) :
    0 ≤ crNumer n cats ys :=
  Finset.sum_nonneg fun c hc =>
    mul_nonneg (by rw [nCat]; exact Nat.cast_nonneg _) (sq_nonneg _)

theorem crNumer_le_crDenom (n : ℕ) (cats : Fin n → α) (ys : Fin n → ℚ) :
    crNumer n cats ys ≤ crDenom n cats ys := by
  rw [crDenom, ← sum_fiber_cats n cats fun i => (ys i - grandAvg n cats ys) ^ 2]
  exact Finset.sum_le_sum fun c hc => group_between_le_within cats ys (grandAvg n cats ys) hc

/-- C6: for every non-empty aligned pair of categorical labels and numeric
measurements, `_correlation_ratio` returns `0.0` when the between-group
numerator is `0`, and otherwise `numerator / denominator` with a non-zero
denominator (so it never divides by zero); the result lies in `[0, 1]`. -/
theorem correlation_ratio_spec (n : ℕ) (hn : 0 < n) (cats : Fin n → α) (ys : Fin n → ℚ) :
    0 ≤ correlationRatio n cats ys ∧ correlationRatio n cats ys ≤ 1 ∧
    (crNumer n cats ys = 0 → correlationRatio n cats ys = 0) ∧
    (crNumer n cats ys ≠ 0 →
      correlationRatio n cats ys = crNumer n cats ys / crDenom n cats ys ∧
      crDenom n cats ys ≠ 0) := by
  rcases eq_or_ne (crNumer n cats ys) 0 with h0 | h0
  · refine ⟨?_, ?_, fun _ => ?_, fun h => absurd h0 h⟩ <;> simp [correlationRatio, h0]
  · have hnum : 0 < crNumer n cats ys := lt_of_le_of_ne (crNumer_nonneg n cats ys) (Ne.symm h0)
    have hden : 0 < crDenom n cats ys := lt_of_lt_of_le hnum (crNumer_le_crDenom n cats ys)
    have hval : correlationRatio n cats ys = crNumer n cats ys / crDenom n cats ys := by
      rw [correlationRatio, if_neg h0]
    refine ⟨?_, ?_, fun h => absurd h h0, fun _ => ⟨hval, ne_of_gt hden⟩⟩
    · rw [hval]
      positivity
    · rw [hval, div_le_one hden]
      exact crNumer_le_crDenom n cats ys

end CorrelationRatioLemmas

/-- Witness for `correlation_ratio_spec` at labels `![0, 0, 1]` and
measurements `![1, 2, 5]`. -/
theorem correlation_ratio_spec_witness :
    0 < 3 ∧
    (0 ≤ correlationRatio 3 ![0, 0, 1] ![1, 2, 5] ∧
      correlationRatio 3 ![(0 : Fin 2), 0, 1] ![1, 2, 5] ≤ 1 ∧
      (crNumer 3 ![(0 : Fin 2), 0, 1] ![1, 2, 5] = 0 →
        correlationRatio 3 ![(0 : Fin 2), 0, 1] ![1, 2, 5] = 0) ∧
      (crNumer 3 ![(0 : Fin 2), 0, 1] ![1, 2, 5] ≠ 0 →
        correlationRatio 3 ![(0 : Fin 2), 0, 1] ![1, 2, 5] =
          crNumer 3 ![(0 : Fin 2), 0, 1] ![1, 2, 5] /
            crDenom 3 ![(0 : Fin 2), 0, 1] ![1, 2, 5] ∧
        crDenom 3 ![(0 : Fin 2), 0, 1] ![1, 2, 5] ≠ 0)) :=
  ⟨by decide, correlation_ratio_spec 3 (by decide) ![(0 : Fin 2), 0, 1] ![1, 2, 5]⟩

/-! ### Mixed correlation theorems -/

theorem pearsonCorr_self (n : ℕ) (x : Fin n → ℚ) (h : (0 : ℚ) < ccov n x x) :
    pearsonCorr n x x = 1 := by
  unfold pearsonCorr
  have hR : (0 : ℝ) < ((ccov n x x : ℚ) : ℝ) := by exact_mod_cast h
  rw [Real.sqrt_mul_self hR.le]
  exact div_self (ne_of_gt hR)

/-- C3: every diagonal entry of the matrix returned by `mixed_correlation`
is exactly 1, whatever value the block-specific measure produced there: the
final `corr + np.diag(1 - np.diag(corr))` forces `corr_ii + (1 - corr_ii)`. -/
theorem mixed_correlation_diag_one {nr c m : ℕ} (d : MixedData nr c m) (hnr : 0 < nr)
    (i : Fin c ⊕ Fin m) : mixedCorrelation d i i = 1 := by
  simp [mixedCorrelation]

/-- Witness for `mixed_correlation_diag_one` on a one-row dataset with one
categorical and one numeric column. -/
theorem mixed_correlation_diag_one_witness :
    0 < 1 ∧
    mixedCorrelation (⟨fun _ _ => 0, fun _ _ => 0⟩ : MixedData 1 1 1) (Sum.inl 0) (Sum.inl 0) = 1 :=
  ⟨by decide, mixed_correlation_diag_one _ (by decide) _⟩

/-- C5: when the real and synthetic datasets are identical,
`MixedCorrelation.evaluate` in mixed mode stores `corr_mat_diff = 0` (the
Frobenius norm of the zero difference matrix) and `normalize_output` returns
value `1 - tanh(0) = 1` with error bar `0`. -/
theorem mixed_corr_identical_data {nr c m : ℕ} (real synt : MixedData nr c m)
    (h : real = synt) :
    mixedCorrEvaluate real synt = 0 ∧
    mixedCorrNormalize (mixedCorrEvaluate real synt) = ([1], [0]) := by
  subst h
  have hz : mixedCorrEvaluate real real = 0 := by
    unfold mixedCorrEvaluate frobNorm corrMatDiff
    simp [sub_self]
  refine ⟨hz, ?_⟩
  rw [hz]
  unfold mixedCorrNormalize
  rw [Real.tanh_zero]
  norm_num

/-- Witness for `mixed_corr_identical_data` on a concrete dataset equal to
itself. -/
theorem mixed_corr_identical_data_witness :
    (⟨fun _ _ => 0, fun _ _ => 0⟩ : MixedData 1 1 1) = ⟨fun _ _ => 0, fun _ _ => 0⟩ ∧
    (mixedCorrEvaluate (⟨fun _ _ => 0, fun _ _ => 0⟩ : MixedData 1 1 1)
        ⟨fun _ _ => 0, fun _ _ => 0⟩ = 0 ∧
      mixedCorrNormalize (mixedCorrEvaluate (⟨fun _ _ => 0, fun _ _ => 0⟩ : MixedData 1 1 1)
        ⟨fun _ _ => 0, fun _ _ => 0⟩) = ([1], [0])) :=
  ⟨rfl, mixed_corr_identical_data _ _ rfl⟩

/-- C9 counterexample: an entry stored in the results mapping before
`MixedCorrelation.evaluate` is called does not survive the call, because
`evaluate` rebinds `self.results` to a fresh dict — contradicting the claim
that every metric's `evaluate` preserves prior entries. -/
theorem mixed_corr_results_drops_prior_entry :
    (fun k => if k = "prev" then some (5 : ℝ) else none) "prev" = some 5 ∧
    mixedCorrEvaluateResults (⟨fun _ _ => 0, fun _ _ => 0⟩ : MixedData 1 1 1)
      ⟨fun _ _ => 0, fun _ _ => 0⟩
      (fun k => if k = "prev" then some (5 : ℝ) else none) "prev" = none := by
  constructor
  · simp
  · simp [mixedCorrEvaluateResults]

/-- C9 amended: `EpsilonIdentifiability.evaluate` updates the existing
results mapping in place — every key other than the stored `'eps_risk'`
keeps its prior value — and returns that mapping, whereas
`MixedCorrelation.evaluate` rebinds `self.results` to a fresh mapping
holding only the keys it stores, so prior entries are dropped. -/
theorem evaluate_results_effects :
    (∀ (no : ℕ) (in_dists ext_distances : Fin no → ℚ)
      (oldResults : String → Option ℚ) (k : String), k ≠ "eps_risk" →
      epsEvaluateResults no in_dists ext_distances oldResults k = oldResults k) ∧
    (∀ (nr c m : ℕ) (real synt : MixedData nr c m)
      (oldResults : String → Option ℝ) (k : String), k ≠ "corr_mat_diff" →
      mixedCorrEvaluateResults real synt oldResults k = none) := by
  constructor
  · intro no in_dists ext_distances oldResults k hk
    simp [epsEvaluateResults, hk]
  · intro nr c m real synt oldResults k hk
    simp [mixedCorrEvaluateResults, hk]

/-- Witness for `evaluate_results_effects` at the key `"foo"`. -/
theorem evaluate_results_effects_witness :
    (("foo" : String) ≠ "eps_risk" ∧ ("foo" : String) ≠ "corr_mat_diff") ∧
    epsEvaluateResults 1 ![0] ![0] (fun _ => some 3) "foo" = (fun _ => some (3 : ℚ)) "foo" ∧
    mixedCorrEvaluateResults (⟨fun _ _ => 0, fun _ _ => 0⟩ : MixedData 1 1 1)
      ⟨fun _ _ => 0, fun _ _ => 0⟩ (fun _ => some 3) "foo" = none :=
  ⟨⟨by decide, by decide⟩,
    evaluate_results_effects.1 1 ![0] ![0] (fun _ => some 3) "foo" (by decide),
    evaluate_results_effects.2 1 1 1 _ _ (fun _ => some 3) "foo" (by decide)⟩

/-- C1 (refutation of the docstring's Spearman claim): on the dataset with
numeric columns `[1, 2, 3]` and `[1, 2, 8]`, the numeric-numeric entry of
the assembled matrix is the Pearson correlation — pandas' `.corr()` default
— and it differs from Spearman's rho there: the columns are monotonically
related, so Spearman's rho is 1, while Pearson's r is strictly below 1. -/
theorem mixed_correlation_numnum_pearson_not_spearman :
    mixedCorrelation dMono (Sum.inr 0) (Sum.inr 1) = pearsonCorr 3 xMono yMono ∧
    spearmanCorr 3 xMono yMono = 1 ∧
    pearsonCorr 3 xMono yMono ≠ 1 := by
  have hx : ccov 3 xMono xMono = 2 := by
    simp [ccov, qmean, xMono, Fin.sum_univ_three]
    norm_num
  have hy : ccov 3 yMono yMono = 86 / 3 := by
    simp [ccov, qmean, yMono, Fin.sum_univ_three]
    norm_num
  have hc : ccov 3 xMono yMono = 7 := by
    simp [ccov, qmean, xMono, yMono, Fin.sum_univ_three]
    norm_num
  refine ⟨?_, ?_, ?_⟩
  · simp [mixedCorrelation, mixedCorrBlocks, dMono]
  · have hlt : ∀ i : Fin 3,
        (Finset.univ.filter fun j => yMono j < yMono i).card =
          (Finset.univ.filter fun j => xMono j < xMono i).card := by decide
    have heq : ∀ i : Fin 3,
        (Finset.univ.filter fun j => yMono j = yMono i).card =
          (Finset.univ.filter fun j => xMono j = xMono i).card := by decide
    have hrank : rankOf 3 yMono = rankOf 3 xMono := by
      funext i
      simp only [rankOf]
      rw [hlt i, heq i]
    have hxlt : ∀ i : Fin 3,
        (Finset.univ.filter fun j => xMono j < xMono i).card = (i : ℕ) := by decide
    have hxeq : ∀ i : Fin 3,
        (Finset.univ.filter fun j => xMono j = xMono i).card = 1 := by decide
    have hrx : rankOf 3 xMono = ![1, 2, 3] := by
      funext i
      simp only [rankOf]
      rw [hxlt i, hxeq i]
      fin_cases i <;> norm_num
    rw [spearmanCorr, hrank, hrx]
    apply pearsonCorr_self
    have : ccov 3 ![1, 2, 3] ![1, 2, 3] = 2 := by
      simp [ccov, qmean, Fin.sum_univ_three]
      norm_num
    rw [this]
    norm_num
  · have hxy : ((ccov 3 xMono xMono : ℚ) : ℝ) * ((ccov 3 yMono yMono : ℚ) : ℝ) =
        (172 : ℝ) / 3 := by
      rw [hx, hy]
      norm_num
    have h49 : Real.sqrt 49 = 7 := by
      rw [show (49 : ℝ) = 7 ^ 2 by norm_num, Real.sqrt_sq (by norm_num : (0 : ℝ) ≤ 7)]
    have hlt : (7 : ℝ) < Real.sqrt (172 / 3) := by
      rw [← h49]
      exact Real.sqrt_lt_sqrt (by norm_num) (by norm_num)
    have hpos : (0 : ℝ) < Real.sqrt (172 / 3) := lt_trans (by norm_num) hlt
    unfold pearsonCorr
    rw [hxy, hc]
    intro heq
    rw [show ((7 : ℚ) : ℝ) = (7 : ℝ) by norm_num,
      div_eq_one_iff_eq (ne_of_gt hpos)] at heq
    linarith [heq ▸ hlt]

end Syntheval
